import Mathlib

/-!
Verification of the mentat edit-application engine: a shallow embedding of
`mentat/parsers/file_edit.py`, `mentat/session.py` and
`mentat/streaming_printer.py`, followed by theorems about the embedded
operations.  Python line numbers are embedded as `Int` (Python integers are
unbounded), line buffers as `List String`, and the mutable replacement list of
a `FileEdit` as an explicitly threaded `List Replacement`.
-/

namespace Mentat

/-- `Replacement` from `file_edit.py`: the lines from `starting_line`
(inclusive) to `ending_line` (exclusive) are replaced by `new_lines`. -/
structure Replacement where
  starting_line : Int
  ending_line : Int
  new_lines : List String
deriving DecidableEq, Repr, Inhabited

/-- `Replacement.__lt__` exactly as written in the source:
`self.ending_line < other.ending_line or (self.ending_line == other.ending_line
and self.starting_line < other.ending_line)`.  Note that the second comparison
is against `other.ending_line`, not `other.starting_line`. -/
def Replacement.lt (a b : Replacement) : Bool :=
  decide (a.ending_line < b.ending_line) ||
    (decide (a.ending_line = b.ending_line) && decide (a.starting_line < b.ending_line))

/-- One step of a stable descending insertion: `x` is placed in front of the
first element strictly below it and after any tie.  Used to model CPython's
stable `list.sort(reverse=True)` (which reverses, sorts ascending by `__lt__`,
and reverses again; on a consistent comparator any stable descending sort
produces the same list). -/
def insertDesc (x : Replacement) : List Replacement → List Replacement
  | [] => [x]
  | y :: ys => if Replacement.lt y x then x :: y :: ys else y :: insertDesc x ys

/-- Model of `self.replacements.sort(reverse=True)`: stable descending sort by
`Replacement.__lt__`. -/
def pySortDesc (l : List Replacement) : List Replacement :=
  l.foldl (fun acc x => insertDesc x acc) []

/-- The overlap test of `resolve_conflicts` (lines 181-184 of `file_edit.py`):
`other.ending_line > replacement.starting_line and
other.starting_line < replacement.ending_line`. -/
def conflictOverlap (other replacement : Replacement) : Prop :=
  other.ending_line > replacement.starting_line ∧
    other.starting_line < replacement.ending_line

instance (a b : Replacement) : Decidable (conflictOverlap a b) := by
  unfold conflictOverlap; infer_instance

/-- Empty intersection of the half-open ranges `[a.starting_line,
a.ending_line)` and `[b.starting_line, b.ending_line)`. -/
def rangesDisjoint (a b : Replacement) : Prop :=
  min a.ending_line b.ending_line ≤ max a.starting_line b.starting_line

instance (a b : Replacement) : Decidable (rangesDisjoint a b) := by
  unfold rangesDisjoint; infer_instance

/-- The body of the overlap-conflict branch of `resolve_conflicts`:
`other.ending_line = replacement.starting_line;
other.starting_line = min(other.starting_line, other.ending_line)`
(the second assignment reads the freshly written `ending_line`).  The
insertion-conflict branch only prints and alters no range. -/
def clipStep (replacement other : Replacement) : Replacement :=
  if conflictOverlap other replacement then
    { other with
        ending_line := replacement.starting_line
        starting_line := min other.starting_line replacement.starting_line }
  else other

/-- Clip `x` in sequence by every already-processed (finalized) replacement,
in processing order: this is what the inner loop of `resolve_conflicts` has
done to an element by the time the outer loop reaches it. -/
def clipAll (heads : List Replacement) (x : Replacement) : Replacement :=
  heads.foldl (fun o h => clipStep h o) x

/-- The doubly nested loop of `resolve_conflicts`: each element is mutated by
the overlap branch once for every earlier (already finalized) element it
overlaps, in order. -/
def resolveAux (heads : List Replacement) : List Replacement → List Replacement
  | [] => []
  | x :: xs =>
    let x' := clipAll heads x
    x' :: resolveAux (heads ++ [x']) xs

/-- `FileEdit.resolve_conflicts`, acting on the replacement list: sort with
`reverse=True`, then run the nested conflict loop. -/
def resolve_conflicts (l : List Replacement) : List Replacement :=
  resolveAux [] (pySortDesc l)

/-- Python slice `l[:n]` (negative indices count from the end, clamped). -/
def pyTake (n : Int) (l : List String) : List String :=
  if n < 0 then l.take ((l.length : Int) + n).toNat else l.take n.toNat

/-- Python slice `l[n:]` (negative indices count from the end, clamped). -/
def pyDrop (n : Int) (l : List String) : List String :=
  if n < 0 then l.drop ((l.length : Int) + n).toNat else l.drop n.toNat

/-- The padding step of the `get_updated_file_lines` loop:
`file_lines += [""] * (replacement.ending_line - len(file_lines))` when
`ending_line` exceeds the buffer length. -/
def padTo (file_lines : List String) (e : Int) : List String :=
  if e > (file_lines.length : Int) then
    file_lines ++ List.replicate (e - (file_lines.length : Int)).toNat ""
  else file_lines

/-- One non-failing iteration of the `get_updated_file_lines` loop: pad the
buffer with empty lines up to `ending_line` if it is shorter, then splice
`file_lines[:starting_line] + new_lines + file_lines[ending_line:]`. -/
def spliceOne (file_lines : List String) (r : Replacement) : List String :=
  pyTake r.starting_line (padTo file_lines r.ending_line) ++ r.new_lines ++
    pyDrop r.ending_line (padTo file_lines r.ending_line)

/-- The loop of `get_updated_file_lines`: `earliest` holds the previous
iteration's `starting_line` (`earliest_line` in the source, `none` initially);
an iteration raises `MentatError` if `earliest_line is not None` and
`replacement.ending_line` exceeds it, and otherwise splices. -/
def applyLoop : Option Int → List String → List Replacement → Except String (List String)
  | _, file_lines, [] => .ok file_lines
  | none, file_lines, r :: rest =>
    applyLoop (some r.starting_line) (spliceOne file_lines r) rest
  | some e, file_lines, r :: rest =>
    if r.ending_line > e then .error "Error: Line overlap in Replacements"
    else applyLoop (some r.starting_line) (spliceOne file_lines r) rest

/-- `FileEdit.get_updated_file_lines`, acting on the replacement list and the
current line buffer: sort with `reverse=True`, then run the splice loop. -/
def get_updated_file_lines (replacements : List Replacement) (file_lines : List String) :
    Except String (List String) :=
  applyLoop none file_lines (pySortDesc replacements)

/-- Whether the splice loop gets through the whole (already sorted) list
without tripping the `MentatError` overlap check. -/
def noResidualOverlap : Option Int → List Replacement → Bool
  | _, [] => true
  | none, r :: rest => noResidualOverlap (some r.starting_line) rest
  | some e, r :: rest =>
    decide (r.ending_line ≤ e) && noResidualOverlap (some r.starting_line) rest

/-- `FileEdit` from `file_edit.py`.  Paths are embedded as strings. -/
structure FileEdit where
  file_path : String
  replacements : List Replacement
  is_creation : Bool
  is_deletion : Bool
  rename_file_path : Option String
deriving DecidableEq, Repr

/-- The rename check shared by both branches of `FileEdit.is_valid` (lines
88-97): an existing rename target silently clears `rename_file_path`; the
edit still validates. -/
def checkRename (fileExists : String → Bool) (fe : FileEdit) : Bool × FileEdit :=
  match fe.rename_file_path with
  | some p => if fileExists p then (true, { fe with rename_file_path := none }) else (true, fe)
  | none => (true, fe)

/-- `FileEdit.is_valid`.  The filesystem is embedded as `fileExists`, the
conversion `os.path.relpath(path, git_root)` as `relpath`, and membership in
`code_file_manager.file_lines` as `inContext`.  Returns the boolean result
together with the (possibly rename-cleared) edit, since the source mutates
`self` in place. -/
def is_valid (fileExists : String → Bool) (relpath : String → String)
    (inContext : String → Bool) (fe : FileEdit) : Bool × FileEdit :=
  if fe.is_creation then
    if fileExists fe.file_path then (false, fe)
    else checkRename fileExists fe
  else
    if fileExists fe.file_path = false then (false, fe)
    else if inContext (relpath fe.file_path) = false then (false, fe)
    else checkRename fileExists fe

/-- The validity filter of `Session._main` (lines 88-92 of `session.py`):
only edits whose `is_valid` returned true survive, in their mutated form. -/
def session_filter_edits (fileExists : String → Bool) (relpath : String → String)
    (inContext : String → Bool) (edits : List FileEdit) : List FileEdit :=
  edits.filterMap fun fe =>
    let r := is_valid fileExists relpath inContext fe
    if r.1 then some r.2 else none

/-- `UserInputManager.ask_yes_no(default_yes=True)`: the review workflow
consumes the user's scripted answers in prompt order; an exhausted script
behaves as the default "yes". -/
def askYesNo (answers : List Bool) : Bool × List Bool :=
  match answers with
  | [] => (true, [])
  | b :: rest => (b, rest)

/-- The per-replacement loop at the end of `filter_replacements`: each
replacement gets a "Keep this change?" prompt and is retained only on a yes.
Returns the retained replacements, the remaining answer script, and the
prompt trace. -/
def filterLoop (answers : List Bool) (prompts : List String) :
    List Replacement → List Replacement × List Bool × List String
  | [] => ([], answers, prompts)
  | r :: rest =>
    let (ans, answers1) := askYesNo answers
    let (keep, answers2, prompts2) := filterLoop answers1 (prompts ++ ["Keep this change?"]) rest
    (if ans then r :: keep else keep, answers2, prompts2)

/-- Tail of `filter_replacements` after the deletion prompt: the rename
prompt (a decline clears the rename and continues), then the replacement
loop, then the kept-edit condition of lines 162-167. -/
def reviewFromRename (fe : FileEdit) (answers : List Bool) (prompts : List String) :
    FileEdit × Bool × List String :=
  let (fe1, answers1, prompts1) :=
    match fe.rename_file_path with
    | some _ =>
      let (b, rest) := askYesNo answers
      (if b then fe else { fe with rename_file_path := none }, rest,
        prompts ++ ["Rename this file?"])
    | none => (fe, answers, prompts)
  let (keep, _, prompts2) := filterLoop answers1 prompts1 fe1.replacements
  let fe2 := { fe1 with replacements := keep }
  (fe2,
    fe2.is_creation || fe2.is_deletion || fe2.rename_file_path.isSome ||
      decide (fe2.replacements.length > 0),
    prompts2)

/-- Middle of `filter_replacements`: the deletion prompt.  A decline returns
`False` immediately (lines 122-125), abandoning the rest of the review. -/
def reviewFromDeletion (fe : FileEdit) (answers : List Bool) (prompts : List String) :
    FileEdit × Bool × List String :=
  if fe.is_deletion then
    let (b, rest) := askYesNo answers
    let prompts1 := prompts ++ ["Delete this file?"]
    if b then reviewFromRename fe rest prompts1 else (fe, false, prompts1)
  else reviewFromRename fe answers prompts

/-- `FileEdit.filter_replacements`: the interactive review pass.  The display
content (diffs shown beside each prompt) does not affect the outcome and is
not modeled; the prompt trace records which questions were asked, in order.
Returns the updated edit, the boolean result, and the prompt trace. -/
def filter_replacements (fe : FileEdit) (answers : List Bool) :
    FileEdit × Bool × List String :=
  if fe.is_creation then
    let (b, rest) := askYesNo answers
    if b then reviewFromDeletion fe rest ["Create this file?"]
    else (fe, false, ["Create this file?"])
  else reviewFromDeletion fe answers []

/-- `StreamingPrinter` state from `streaming_printer.py`: the deque of
pending character units (front at the head), the `chars_remaining` counter,
and the `shutdown` flag. -/
structure StreamingPrinter where
  strings_to_print : List (List Char)
  chars_remaining : Int
  shutdown : Bool
deriving DecidableEq, Repr

/-- `StreamingPrinter.__init__`. -/
def StreamingPrinter.init : StreamingPrinter :=
  { strings_to_print := [], chars_remaining := 0, shutdown := false }

/-- First index at which `needle` occurs in `hay` (Python `str.index`; total
here, returning the length when absent, which cannot happen at the call
site since the haystack is built around the needle). -/
def strIndex (needle : List Char) : List Char → Nat
  | [] => 0
  | c :: t => if needle.isPrefixOf (c :: t) then 0 else strIndex needle t + 1

/-- `StreamingPrinter.add_string`.  The `color` argument is embedded as the
pair of ANSI code sequences `termcolor.colored` would wrap around the text
(the color escape code it prepends and the reset code it appends), or
`none`.  The string
is exploded into one-character units; the color codes are glued onto the
first and last unit using the first index of the text inside the colored
text, exactly as in the source. -/
def add_string (st : StreamingPrinter) (string end_ : List Char)
    (color : Option (List Char × List Char)) : StreamingPrinter :=
  if st.shutdown then st
  else if string.length = 0 then st
  else
    let s := string ++ end_
    let colored_string :=
      match color with
      | some (pre, suf) => pre ++ s ++ suf
      | none => s
    let index := strIndex s colored_string
    let characters := s.map (fun c => [c])
    let characters := characters.modifyHead (fun c0 => colored_string.take index ++ c0)
    let characters :=
      characters.dropLast ++ [characters.getLastD [] ++ colored_string.drop (index + s.length)]
    { st with
        strings_to_print := st.strings_to_print ++ characters,
        chars_remaining := st.chars_remaining + characters.length }

/-- One iteration of the body of `StreamingPrinter.print_lines`: on shutdown
the loop breaks at once (emitting nothing); otherwise, if the deque is
nonempty, its front is sent and `chars_remaining` is decremented. -/
def printStep (st : StreamingPrinter) : StreamingPrinter × Option (List Char) :=
  if st.shutdown then (st, none)
  else
    match st.strings_to_print with
    | [] => (st, none)
    | s :: rest =>
      ({ st with strings_to_print := rest, chars_remaining := st.chars_remaining - 1 }, some s)

/-- `StreamingPrinter.print_lines` run for `fuel` iterations (the real loop
is unbounded; `fuel` many loop entries are modeled).  Returns the state at
exit or exhaustion and the list of emitted character units. -/
def runPrintLines : Nat → StreamingPrinter → StreamingPrinter × List (List Char)
  | 0, st => (st, [])
  | n + 1, st =>
    if st.shutdown then (st, [])
    else
      match st.strings_to_print with
      | [] => runPrintLines n st
      | s :: rest =>
        let st1 : StreamingPrinter :=
          { st with strings_to_print := rest, chars_remaining := st.chars_remaining - 1 }
        let (st2, out) := runPrintLines n st1
        (st2, s :: out)

/-- `StreamingPrinter.wrap_it_up`. -/
def wrap_it_up (st : StreamingPrinter) : StreamingPrinter :=
  { st with shutdown := true }

/-- The divisor of the `sleep_time` computation
`max_finish_time / (self.chars_remaining + 1)`. -/
def sleepDivisor (st : StreamingPrinter) : Int :=
  st.chars_remaining + 1

/-- The implicit invariant of the printer: `chars_remaining` equals the
number of queued character units. -/
def PrinterInv (st : StreamingPrinter) : Prop :=
  st.chars_remaining = (st.strings_to_print.length : Int)

instance (st : StreamingPrinter) : Decidable (PrinterInv st) := by
  unfold PrinterInv; infer_instance

/-! ### Lemmas about conflict resolution -/

/-- Pairwise non-overlap under the code's own overlap test. -/
def NotOv (a b : Replacement) : Prop := ¬ conflictOverlap a b

instance (a b : Replacement) : Decidable (NotOv a b) := by
  unfold NotOv; infer_instance

lemma conflictOverlap_symm {a b : Replacement} (h : conflictOverlap a b) :
    conflictOverlap b a := by
  unfold conflictOverlap at *; omega

lemma notOv_symm {a b : Replacement} (h : NotOv a b) : NotOv b a :=
  fun hov => h (conflictOverlap_symm hov)

lemma clipStep_not_overlap (r o : Replacement) : NotOv (clipStep r o) r := by
  unfold NotOv clipStep
  split
  · unfold conflictOverlap; dsimp; omega
  · assumption

lemma clipStep_preserves {r r' o : Replacement} (ho : NotOv o r) (hr' : NotOv r' r) :
    NotOv (clipStep r' o) r := by
  unfold NotOv clipStep conflictOverlap at *
  split
  · dsimp; omega
  · exact ho

lemma clipStep_id {r o : Replacement} (h : ¬ conflictOverlap o r) : clipStep r o = o := by
  unfold clipStep
  rw [if_neg h]

lemma clipAll_cons (h : Replacement) (heads : List Replacement) (x : Replacement) :
    clipAll (h :: heads) x = clipAll heads (clipStep h x) := rfl

lemma clipAll_pres {g : Replacement} :
    ∀ (heads : List Replacement) (x : Replacement), NotOv x g →
      (∀ h ∈ heads, NotOv h g) → NotOv (clipAll heads x) g := by
  intro heads
  induction heads with
  | nil => intro x hx _; exact hx
  | cons h hs ih =>
    intro x hx hall
    rw [clipAll_cons]
    exact ih _ (clipStep_preserves hx (hall h (List.mem_cons_self h hs)))
      (fun h' hh' => hall h' (List.mem_cons_of_mem h hh'))

lemma clipAll_not_overlap :
    ∀ (heads : List Replacement) (x : Replacement), List.Pairwise NotOv heads →
      ∀ g ∈ heads, NotOv (clipAll heads x) g := by
  intro heads
  induction heads with
  | nil => intro x _ g hg; cases hg
  | cons h hs ih =>
    intro x hp g hg
    rw [clipAll_cons]
    rcases List.mem_cons.mp hg with rfl | hg'
    · exact clipAll_pres hs (clipStep g x) (clipStep_not_overlap g x)
        (fun h' hh' => notOv_symm (List.rel_of_pairwise_cons hp hh'))
    · exact ih (clipStep h x) (List.Pairwise.of_cons hp) g hg'

lemma clipAll_id : ∀ (heads : List Replacement) (x : Replacement),
    (∀ h ∈ heads, ¬ conflictOverlap x h) → clipAll heads x = x := by
  intro heads
  induction heads with
  | nil => intro x _; rfl
  | cons h hs ih =>
    intro x hall
    rw [clipAll_cons, clipStep_id (hall h (List.mem_cons_self h hs))]
    exact ih x (fun h' hh' => hall h' (List.mem_cons_of_mem h hh'))

lemma resolveAux_pairwise :
    ∀ (rest heads : List Replacement), List.Pairwise NotOv heads →
      List.Pairwise NotOv (heads ++ resolveAux heads rest) := by
  intro rest
  induction rest with
  | nil => intro heads hp; simpa [resolveAux] using hp
  | cons x xs ih =>
    intro heads hp
    have hrw : heads ++ resolveAux heads (x :: xs)
        = (heads ++ [clipAll heads x]) ++ resolveAux (heads ++ [clipAll heads x]) xs := by
      simp [resolveAux]
    rw [hrw]
    apply ih
    rw [List.pairwise_append]
    refine ⟨hp, List.pairwise_singleton _ _, ?_⟩
    intro a ha b hb
    rw [List.mem_singleton] at hb
    subst hb
    exact notOv_symm (clipAll_not_overlap heads x hp a ha)

lemma resolveAux_fix :
    ∀ (rest heads : List Replacement), List.Pairwise NotOv (heads ++ rest) →
      resolveAux heads rest = rest := by
  intro rest
  induction rest with
  | nil => intro heads _; rfl
  | cons x xs ih =>
    intro heads hp
    have hx : ∀ g ∈ heads, ¬ conflictOverlap x g := by
      intro g hg
      have := (List.pairwise_append.mp hp).2.2 g hg x (List.mem_cons_self x xs)
      exact fun hov => this (conflictOverlap_symm hov)
    have hrw : heads ++ x :: xs = (heads ++ [x]) ++ xs := by simp
    simp only [resolveAux, clipAll_id heads x hx]
    rw [ih (heads ++ [x]) (by rw [← hrw]; exact hp)]

lemma resolve_conflicts_pairwise_notOv (l : List Replacement) :
    List.Pairwise NotOv (resolve_conflicts l) := by
  have := resolveAux_pairwise (pySortDesc l) [] List.Pairwise.nil
  simpa [resolve_conflicts] using this

/-! ### Lemmas about the descending sort -/

lemma insertDesc_perm (x : Replacement) (l : List Replacement) :
    (insertDesc x l).Perm (x :: l) := by
  induction l with
  | nil => exact List.Perm.refl _
  | cons y ys ih =>
    unfold insertDesc
    split
    · exact List.Perm.refl _
    · exact (ih.cons y).trans (List.Perm.swap x y ys)

lemma mem_insertDesc {w x : Replacement} {l : List Replacement} :
    w ∈ insertDesc x l ↔ w = x ∨ w ∈ l := by
  rw [(insertDesc_perm x l).mem_iff, List.mem_cons]

lemma sortFold_perm :
    ∀ (l acc : List Replacement),
      (List.foldl (fun a x => insertDesc x a) acc l).Perm (acc ++ l) := by
  intro l
  induction l with
  | nil => intro acc; simp
  | cons x xs ih =>
    intro acc
    rw [List.foldl_cons]
    refine ((ih (insertDesc x acc)).trans ?_)
    refine ((insertDesc_perm x acc).append_right xs).trans ?_
    exact List.perm_middle.symm

lemma pySortDesc_perm (l : List Replacement) : (pySortDesc l).Perm l := by
  simpa [pySortDesc] using sortFold_perm l []

lemma lt_le {a b : Replacement} (h : Replacement.lt a b = true) :
    a.ending_line ≤ b.ending_line := by
  simp only [Replacement.lt, Bool.or_eq_true, Bool.and_eq_true, decide_eq_true_eq] at h
  omega

lemma not_lt_ge {a b : Replacement} (h : Replacement.lt a b = false) :
    b.ending_line ≤ a.ending_line := by
  simp only [Replacement.lt, Bool.or_eq_false_iff, Bool.and_eq_false_iff,
    decide_eq_false_iff_not] at h
  omega

lemma lt_trans' {a b c : Replacement} (h1 : Replacement.lt a b = true)
    (h2 : Replacement.lt b c = true) : Replacement.lt a c = true := by
  simp only [Replacement.lt, Bool.or_eq_true, Bool.and_eq_true, decide_eq_true_eq] at *
  omega

/-- Non-increasing `ending_line` along the list. -/
def SortedEnd (l : List Replacement) : Prop :=
  List.Pairwise (fun a b => b.ending_line ≤ a.ending_line) l

lemma insertDesc_sortedEnd {x : Replacement} {l : List Replacement} (h : SortedEnd l) :
    SortedEnd (insertDesc x l) := by
  induction l with
  | nil => simp [insertDesc, SortedEnd]
  | cons y ys ih =>
    unfold insertDesc
    split
    · rename_i hlt
      refine List.Pairwise.cons ?_ h
      intro z hz
      rcases List.mem_cons.mp hz with rfl | hz'
      · exact lt_le hlt
      · exact le_trans (List.rel_of_pairwise_cons h hz') (lt_le hlt)
    · rename_i hlt
      rw [Bool.not_eq_true] at hlt
      refine List.Pairwise.cons ?_ (ih (List.Pairwise.of_cons h))
      intro w hw
      rcases mem_insertDesc.mp hw with rfl | hw'
      · exact not_lt_ge hlt
      · exact List.rel_of_pairwise_cons h hw'

lemma pySortDesc_sortedEnd (l : List Replacement) : SortedEnd (pySortDesc l) := by
  suffices h : ∀ (l acc : List Replacement), SortedEnd acc →
      SortedEnd (List.foldl (fun a x => insertDesc x a) acc l) by
    exact h l [] List.Pairwise.nil
  intro l
  induction l with
  | nil => intro acc h; exact h
  | cons x xs ih => intro acc h; exact ih (insertDesc x acc) (insertDesc_sortedEnd h)

/-- The comparator does not hold in both directions for this pair. -/
def LtConsistent (a b : Replacement) : Prop :=
  ¬ (Replacement.lt a b = true ∧ Replacement.lt b a = true)

lemma ltConsistent_symm {a b : Replacement} (h : LtConsistent a b) : LtConsistent b a :=
  fun hc => h ⟨hc.2, hc.1⟩

lemma notOv_ltConsistent {a b : Replacement} (h : NotOv a b) : LtConsistent a b := by
  intro hc
  obtain ⟨h1, h2⟩ := hc
  simp only [Replacement.lt, Bool.or_eq_true, Bool.and_eq_true, decide_eq_true_eq] at h1 h2
  unfold NotOv conflictOverlap at h
  omega

/-- Descending sortedness by the comparator: no earlier element is `lt` a
later one. -/
def SortedDesc (l : List Replacement) : Prop :=
  List.Pairwise (fun a b => Replacement.lt a b = false) l

lemma insertDesc_sortedDesc {x : Replacement} {l : List Replacement} (hs : SortedDesc l)
    (hc : ∀ y ∈ l, LtConsistent x y) : SortedDesc (insertDesc x l) := by
  induction l with
  | nil => simp [insertDesc, SortedDesc]
  | cons y ys ih =>
    unfold insertDesc
    split
    · rename_i hlt
      refine List.Pairwise.cons ?_ hs
      intro z hz
      rcases List.mem_cons.mp hz with rfl | hz'
      · have := hc z (List.mem_cons_self z ys)
        cases hxz : Replacement.lt x z
        · rfl
        · exact absurd ⟨hxz, hlt⟩ this
      · cases hxz : Replacement.lt x z
        · rfl
        · have := lt_trans' hlt hxz
          rw [List.rel_of_pairwise_cons hs hz'] at this
          cases this
    · rename_i hlt
      rw [Bool.not_eq_true] at hlt
      refine List.Pairwise.cons ?_
        (ih (List.Pairwise.of_cons hs) (fun y' hy' => hc y' (List.mem_cons_of_mem y hy')))
      intro w hw
      rcases mem_insertDesc.mp hw with rfl | hw'
      · exact hlt
      · exact List.rel_of_pairwise_cons hs hw'

lemma pySortDesc_sortedDesc {l : List Replacement}
    (h : List.Pairwise LtConsistent l) : SortedDesc (pySortDesc l) := by
  suffices haux : ∀ (l acc : List Replacement), List.Pairwise LtConsistent l →
      SortedDesc acc → (∀ x ∈ l, ∀ y ∈ acc, LtConsistent x y) →
      SortedDesc (List.foldl (fun a x => insertDesc x a) acc l) by
    exact haux l [] h List.Pairwise.nil (by intro x _ y hy; cases hy)
  intro l
  induction l with
  | nil => intro acc _ hacc _; exact hacc
  | cons x xs ih =>
    intro acc hl hacc hcross
    refine ih (insertDesc x acc) (List.Pairwise.of_cons hl)
      (insertDesc_sortedDesc hacc (hcross x (List.mem_cons_self x xs))) ?_
    intro x' hx' y hy
    rcases mem_insertDesc.mp hy with rfl | hy'
    · exact ltConsistent_symm (List.rel_of_pairwise_cons hl hx')
    · exact hcross x' (List.mem_cons_of_mem x hx') y hy'

/-! ### Lemmas about the splice loop -/

lemma applyLoop_nil (e : Option Int) (lines : List String) :
    applyLoop e lines [] = .ok lines := by
  cases e <;> rfl

lemma noResidualOverlap_nil (e : Option Int) : noResidualOverlap e [] = true := by
  cases e <;> rfl

lemma applyLoop_ok :
    ∀ (rs : List Replacement) (e : Option Int) (lines : List String),
      noResidualOverlap e rs = true → ∃ out, applyLoop e lines rs = .ok out := by
  intro rs
  induction rs with
  | nil => intro e lines _; exact ⟨lines, applyLoop_nil e lines⟩
  | cons r rest ih =>
    intro e lines h
    cases e with
    | none =>
      rw [noResidualOverlap] at h
      rw [applyLoop]
      exact ih _ _ h
    | some v =>
      rw [noResidualOverlap, Bool.and_eq_true] at h
      have hle : r.ending_line ≤ v := of_decide_eq_true h.1
      rw [applyLoop, if_neg (by omega)]
      exact ih _ _ h.2

lemma applyLoop_err :
    ∀ (rs : List Replacement) (e : Option Int) (lines : List String),
      noResidualOverlap e rs = false →
      applyLoop e lines rs = .error "Error: Line overlap in Replacements" := by
  intro rs
  induction rs with
  | nil =>
    intro e lines h
    rw [noResidualOverlap_nil] at h
    cases h
  | cons r rest ih =>
    intro e lines h
    cases e with
    | none =>
      rw [noResidualOverlap] at h
      rw [applyLoop]
      exact ih _ _ h
    | some v =>
      rw [noResidualOverlap, Bool.and_eq_false_iff] at h
      rw [applyLoop]
      rcases h with h1 | h2
      · rw [decide_eq_false_iff_not] at h1
        rw [if_pos (by omega)]
      · by_cases hgt : r.ending_line > v
        · rw [if_pos hgt]
        · rw [if_neg hgt]
          exact ih _ _ h2

/-- The back-to-front application invariant between adjacent sorted
replacements: the later one ends no later than the earlier one starts. -/
abbrev AppliesBefore (a b : Replacement) : Prop :=
  b.ending_line ≤ a.starting_line

lemma chain_noResidual :
    ∀ (S : List Replacement), List.Chain' AppliesBefore S →
      ∀ pre : Option Int,
        (∀ v : Int, pre = some v → ∀ h : Replacement, S.head? = some h → h.ending_line ≤ v) →
        noResidualOverlap pre S = true := by
  intro S
  induction S with
  | nil => intro _ pre _; exact noResidualOverlap_nil pre
  | cons a rest ih =>
    intro hchain pre hpre
    obtain ⟨hhead, htail⟩ := List.chain'_cons'.mp hchain
    have hrec : noResidualOverlap (some a.starting_line) rest = true := by
      refine ih htail (some a.starting_line) ?_
      intro v hv h hh
      cases hv
      exact hhead h (by simpa using hh)
    cases pre with
    | none => rw [noResidualOverlap]; exact hrec
    | some v =>
      rw [noResidualOverlap, Bool.and_eq_true]
      exact ⟨decide_eq_true (hpre v rfl a rfl), hrec⟩

lemma noResidual_chain :
    ∀ (S : List Replacement) (pre : Option Int),
      noResidualOverlap pre S = true → List.Chain' AppliesBefore S := by
  intro S
  induction S with
  | nil => intro _ _; exact List.chain'_nil
  | cons a rest ih =>
    intro pre h
    have hrec : noResidualOverlap (some a.starting_line) rest = true := by
      cases pre with
      | none => rw [noResidualOverlap] at h; exact h
      | some v => rw [noResidualOverlap, Bool.and_eq_true] at h; exact h.2
    rw [List.chain'_cons']
    refine ⟨?_, ih _ hrec⟩
    intro y hy
    cases rest with
    | nil => cases hy
    | cons b rs =>
      have hyb : y = b := by
        have := hy
        simp at this
        exact this.symm
      subst hyb
      rw [noResidualOverlap, Bool.and_eq_true] at hrec
      exact of_decide_eq_true hrec.1

/-- From full sortedness, pairwise code-disjointness and well-formed ranges,
adjacent sorted replacements satisfy the apply invariant. -/
lemma pairwise_appliesBefore {S : List Replacement} (h1 : SortedDesc S)
    (h2 : List.Pairwise NotOv S)
    (hwf : ∀ r ∈ S, r.starting_line ≤ r.ending_line) :
    List.Pairwise AppliesBefore S := by
  have hand := List.Pairwise.and h1 h2
  refine List.Pairwise.imp_of_mem ?_ hand
  intro a b ha hb hab
  obtain ⟨hlt, hov⟩ := hab
  have hfa := hwf a ha
  have hfb := hwf b hb
  simp only [Replacement.lt, Bool.or_eq_false_iff, Bool.and_eq_false_iff,
    decide_eq_false_iff_not] at hlt
  unfold NotOv conflictOverlap at hov
  unfold AppliesBefore
  omega

/-! ### C1 -/

lemma notOv_rangesDisjoint {a b : Replacement} (h : NotOv a b) : rangesDisjoint a b := by
  unfold NotOv conflictOverlap at h
  unfold rangesDisjoint
  omega

lemma notOv_symmetric : Symmetric NotOv := fun _ _ h => notOv_symm h

/-- C1: after `resolve_conflicts`, the half-open ranges of the resulting
replacements are pairwise disjoint, and running `resolve_conflicts` again only
re-sorts the list: the second run equals the stable descending re-sort of the
first run's output, a permutation of it, so no replacement's `starting_line`,
`ending_line` or `new_lines` is changed by the second run. -/
theorem resolve_conflicts_disjoint_idempotent (l : List Replacement) :
    List.Pairwise rangesDisjoint (resolve_conflicts l) ∧
      resolve_conflicts (resolve_conflicts l) = pySortDesc (resolve_conflicts l) ∧
      (resolve_conflicts (resolve_conflicts l)).Perm (resolve_conflicts l) := by
  have hD : List.Pairwise NotOv (resolve_conflicts l) := resolve_conflicts_pairwise_notOv l
  have hsortD : List.Pairwise NotOv (pySortDesc (resolve_conflicts l)) :=
    ((pySortDesc_perm (resolve_conflicts l)).pairwise_iff
      (fun {_ _} h => notOv_symm h)).mpr hD
  have hfix : resolve_conflicts (resolve_conflicts l) = pySortDesc (resolve_conflicts l) := by
    unfold resolve_conflicts
    exact resolveAux_fix _ [] (by simpa using hsortD)
  refine ⟨hD.imp (fun h => notOv_rangesDisjoint h), hfix, ?_⟩
  rw [hfix]
  exact pySortDesc_perm _

/-! ### C2 -/

/-- C2 (amended): if every replacement is well-formed (`starting_line ≤
ending_line`) and no two replacements overlap under the code's own overlap
test (`conflictOverlap`, which also counts an insertion point strictly inside
another replacement's span), then `get_updated_file_lines` succeeds; and
whenever the sorted list has a replacement whose `ending_line` exceeds the
`starting_line` of any earlier (hence smallest-so-far) sorted replacement,
`get_updated_file_lines` raises `MentatError` instead of returning a spliced
buffer. -/
theorem get_updated_file_lines_ok_or_raises
    (replacements : List Replacement) (file_lines : List String) :
    ((∀ r ∈ replacements, r.starting_line ≤ r.ending_line) →
      List.Pairwise NotOv replacements →
      ∃ out, get_updated_file_lines replacements file_lines = .ok out) ∧
    (∀ i j : Nat, j < i → i < (pySortDesc replacements).length →
      ((pySortDesc replacements).getD i default).ending_line >
        ((pySortDesc replacements).getD j default).starting_line →
      get_updated_file_lines replacements file_lines =
        .error "Error: Line overlap in Replacements") := by
  constructor
  · intro hwf hD
    have hperm := pySortDesc_perm replacements
    have hDS : List.Pairwise NotOv (pySortDesc replacements) :=
      (hperm.pairwise_iff (fun {_ _} h => notOv_symm h)).mpr hD
    have hwfS : ∀ r ∈ pySortDesc replacements, r.starting_line ≤ r.ending_line :=
      fun r hr => hwf r (hperm.subset hr)
    have hcons : List.Pairwise LtConsistent replacements :=
      hD.imp (fun h => notOv_ltConsistent h)
    have hsorted := pySortDesc_sortedDesc hcons
    have hfinal := pairwise_appliesBefore hsorted hDS hwfS
    have hnr := chain_noResidual _ hfinal.chain' none (by intro v hv; cases hv)
    exact applyLoop_ok _ none file_lines hnr
  · intro i j hji hi hgt
    cases hnr : noResidualOverlap none (pySortDesc replacements) with
    | false => exact applyLoop_err _ none file_lines hnr
    | true =>
      exfalso
      have hchain := noResidual_chain _ none hnr
      have hsortE := pySortDesc_sortedEnd replacements
      set S := pySortDesc replacements with hS
      have hj : j < S.length := lt_trans hji hi
      have hj1 : j + 1 ≤ i := hji
      have hj1len : j < S.length - 1 := by omega
      have hcons := List.chain'_iff_get.mp hchain j hj1len
      -- (S.get j+1).ending_line ≤ (S.get j).starting_line
      have hend : (S.get ⟨i, hi⟩).ending_line ≤ (S.get ⟨j + 1, by omega⟩).ending_line := by
        rcases Nat.lt_or_ge (j + 1) i with hlt | hge
        · exact List.pairwise_iff_get.mp hsortE ⟨j + 1, by omega⟩ ⟨i, hi⟩ hlt
        · have : j + 1 = i := by omega
          subst this
          exact le_refl _
      rw [List.getD_eq_getElem _ _ hi, List.getD_eq_getElem _ _ hj] at hgt
      unfold AppliesBefore at hcons
      simp only [List.get_eq_getElem] at hcons hend
      omega

/-- C2 counterexample: the ranges `[5,5)` (empty) and `[3,7)` have empty
intersection, yet `get_updated_file_lines` raises `MentatError` on them: the
claim's precondition "pairwise range intersections are empty" does not make
application succeed. -/
theorem get_updated_file_lines_disjoint_but_raises :
    rangesDisjoint ⟨5, 5, []⟩ ⟨3, 7, ["a"]⟩ ∧ rangesDisjoint ⟨3, 7, ["a"]⟩ ⟨5, 5, []⟩ ∧
      get_updated_file_lines [⟨5, 5, []⟩, ⟨3, 7, ["a"]⟩]
          ["l0", "l1", "l2", "l3", "l4", "l5", "l6"] =
        .error "Error: Line overlap in Replacements" :=
  ⟨by decide, by decide, rfl⟩

/-- Witness for the amended C2 theorem at concrete inputs: a well-formed,
code-disjoint pair applies successfully, and a pair with residual overlap in
sorted order raises. -/
theorem get_updated_file_lines_ok_or_raises_witness :
    (∃ out, get_updated_file_lines [⟨0, 2, ["x"]⟩, ⟨4, 5, ["y"]⟩] ["a", "b", "c", "d", "e"] =
      .ok out) ∧
    get_updated_file_lines [⟨0, 5, ["x"]⟩, ⟨3, 8, ["y"]⟩] [] =
      .error "Error: Line overlap in Replacements" :=
  ⟨(get_updated_file_lines_ok_or_raises [⟨0, 2, ["x"]⟩, ⟨4, 5, ["y"]⟩]
      ["a", "b", "c", "d", "e"]).1 (by decide) (by decide),
   (get_updated_file_lines_ok_or_raises [⟨0, 5, ["x"]⟩, ⟨3, 8, ["y"]⟩] []).2 1 0
      (by decide) (by decide) (by decide)⟩

/-! ### C3 -/

/-- C3: at the failing input (`a = [3,5)`, `b = [1,5)`, equal `ending_line`,
`a.starting_line > b.starting_line`) the comparator holds in both directions,
because the tie-break compares `self.starting_line` against
`other.ending_line` instead of `other.starting_line`: `a` is not greater than
`b` under `__lt__`, so the claimed descending tie-break order does not hold. -/
theorem replacement_lt_both_directions :
    Replacement.lt ⟨3, 5, []⟩ ⟨1, 5, []⟩ = true ∧
      Replacement.lt ⟨1, 5, []⟩ ⟨3, 5, []⟩ = true := by
  decide

/-! ### C4 -/

/-- C4 counterexample: on exactly the replacements `[0,5)` and `[3,8)`,
`resolve_conflicts` yields the ranges `[3,8)` and `[0,3)` — not the claimed
`[0,5)` and `[3,3)` (in either order). -/
theorem resolve_conflicts_example_ranges :
    (resolve_conflicts [⟨0, 5, ["a"]⟩, ⟨3, 8, ["b"]⟩]).map
        (fun r => (r.starting_line, r.ending_line)) = [(3, 8), (0, 3)] ∧
      (resolve_conflicts [⟨0, 5, ["a"]⟩, ⟨3, 8, ["b"]⟩]).map
          (fun r => (r.starting_line, r.ending_line)) ≠ [(0, 5), (3, 3)] ∧
      (resolve_conflicts [⟨0, 5, ["a"]⟩, ⟨3, 8, ["b"]⟩]).map
          (fun r => (r.starting_line, r.ending_line)) ≠ [(3, 3), (0, 5)] := by
  decide

/-- C4 (amended): on the two overlapping replacements `[0,5)` and `[3,8)`,
the higher-ending `[3,8)` sorts first and wins intact; the earlier `[0,5)` is
clipped back to `[0,3)`, its end cut to the winner's start. -/
theorem resolve_conflicts_example (l1 l2 : List String) :
    resolve_conflicts [⟨0, 5, l1⟩, ⟨3, 8, l2⟩] = [⟨3, 8, l2⟩, ⟨0, 3, l1⟩] := rfl

/-! ### C5 -/

/-- C5 counterexample: for a deletion edit that also carries a replacement
and a rename, declining the "Delete this file?" prompt abandons the whole
edit: `filter_replacements` returns `False` at once, and neither the rename
prompt nor any replacement prompt is presented. -/
theorem filter_replacements_decline_delete_abandons :
    filter_replacements ⟨"f", [⟨0, 1, ["x"]⟩], false, true, some "g"⟩ [false] =
        (⟨"f", [⟨0, 1, ["x"]⟩], false, true, some "g"⟩, false, ["Delete this file?"]) ∧
      "Rename this file?" ∉
        (filter_replacements ⟨"f", [⟨0, 1, ["x"]⟩], false, true, some "g"⟩ [false]).2.2 ∧
      "Keep this change?" ∉
        (filter_replacements ⟨"f", [⟨0, 1, ["x"]⟩], false, true, some "g"⟩ [false]).2.2 := by
  decide

/-- C5 (amended): for every non-creation deletion edit, a declined deletion
prompt makes `filter_replacements` return `False` immediately with the edit
untouched and only the deletion prompt asked: the rename and replacement
prompts are never presented. -/
theorem filter_replacements_decline_delete (fe : FileEdit) (answers : List Bool)
    (hc : fe.is_creation = false) (hd : fe.is_deletion = true) :
    filter_replacements fe (false :: answers) = (fe, false, ["Delete this file?"]) := by
  unfold filter_replacements reviewFromDeletion askYesNo
  rw [hc, hd]
  simp

/-- Witness for the amended C5 theorem. -/
theorem filter_replacements_decline_delete_witness :
    filter_replacements ⟨"f", [], false, true, none⟩ [false] =
      (⟨"f", [], false, true, none⟩, false, ["Delete this file?"]) :=
  filter_replacements_decline_delete ⟨"f", [], false, true, none⟩ [] rfl rfl

/-! ### C6 -/

lemma pyTake_append_pyDrop (n : Int) (l : List String) :
    pyTake n l ++ pyDrop n l = l := by
  unfold pyTake pyDrop
  split <;> exact List.take_append_drop _ _

/-- C6 counterexample: inserting one line at `k = 5` into a one-line buffer
pads the buffer first, so the result has 6 lines, not
`original length + len(new_lines) = 2`. -/
theorem get_updated_insertion_pads :
    get_updated_file_lines [⟨5, 5, ["n"]⟩] ["a"] = .ok ["a", "", "", "", "", "n"] ∧
      (["a", "", "", "", "", "n"] : List String).length ≠
        (["a"] : List String).length + (["n"] : List String).length := by
  constructor
  · rfl
  · decide

/-- C6 (amended): a single insertion `[k,k)` always succeeds and never
removes an existing line (the input buffer is a sublist of the output); when
`k` is at most the buffer length the output length is the input length plus
`len(new_lines)`, and when `k` lies past the end the buffer is first padded
with empty lines so the output has `k + len(new_lines)` lines. -/
lemma padTo_of_le {lines : List String} {e : Int} (h : e ≤ (lines.length : Int)) :
    padTo lines e = lines := by
  unfold padTo
  rw [if_neg (by omega)]

lemma padTo_length_of_lt {lines : List String} {e : Int} (h : (lines.length : Int) < e) :
    ((padTo lines e).length : Int) = e := by
  unfold padTo
  rw [if_pos (by omega), List.length_append, List.length_replicate]
  push_cast
  omega

lemma padTo_sublist (lines : List String) (e : Int) : lines.Sublist (padTo lines e) := by
  unfold padTo
  split
  · exact List.sublist_append_left _ _
  · exact List.Sublist.refl _

theorem get_updated_insertion (k : Int) (new lines : List String) :
    ∃ out, get_updated_file_lines [⟨k, k, new⟩] lines = .ok out ∧
      lines.Sublist out ∧
      (k ≤ (lines.length : Int) → out.length = lines.length + new.length) ∧
      ((lines.length : Int) < k → (out.length : Int) = k + new.length) := by
  refine ⟨spliceOne lines ⟨k, k, new⟩, rfl, ?_, ?_, ?_⟩
  · by_cases hk : k ≤ (lines.length : Int)
    · unfold spliceOne
      dsimp only
      rw [padTo_of_le hk]
      conv_lhs => rw [← pyTake_append_pyDrop k lines]
      exact List.Sublist.append (List.sublist_append_left _ _) (List.Sublist.refl _)
    · push_neg at hk
      unfold spliceOne
      dsimp only
      have hpadlen := padTo_length_of_lt hk
      have h0 : ¬ (k < 0) := by omega
      rw [pyTake, if_neg h0, pyDrop, if_neg h0,
        List.take_of_length_le (by omega), List.drop_eq_nil_of_le (by omega),
        List.append_nil]
      exact (padTo_sublist lines k).trans (List.sublist_append_left _ _)
  · intro hk
    unfold spliceOne
    dsimp only
    rw [padTo_of_le hk]
    have hsplit := congrArg List.length (pyTake_append_pyDrop k lines)
    rw [List.length_append] at hsplit
    rw [List.length_append, List.length_append]
    omega
  · intro hk
    unfold spliceOne
    dsimp only
    have hpadlen := padTo_length_of_lt hk
    have h0 : ¬ (k < 0) := by omega
    rw [pyTake, if_neg h0, pyDrop, if_neg h0,
      List.take_of_length_le (by omega), List.drop_eq_nil_of_le (by omega),
      List.append_nil, List.length_append]
    push_cast
    omega

/-- Witness for the amended C6 theorem at a concrete in-range insertion. -/
theorem get_updated_insertion_witness :
    ∃ out, get_updated_file_lines [⟨1, 1, ["n"]⟩] ["a", "b"] = .ok out ∧
      (["a", "b"] : List String).Sublist out ∧
      ((1 : Int) ≤ ((["a", "b"] : List String).length : Int) →
        out.length = (["a", "b"] : List String).length + (["n"] : List String).length) ∧
      (((["a", "b"] : List String).length : Int) < 1 →
        (out.length : Int) = 1 + (["n"] : List String).length) :=
  get_updated_insertion 1 ["n"] ["a", "b"]

/-! ### C7 -/

/-- C7: a creation edit whose target path already exists fails the validity
check, and the session's validity filter drops it, so it is never passed on
to the apply stage. -/
theorem is_valid_creation_exists (fileExists : String → Bool)
    (relpath : String → String) (inContext : String → Bool) (fe : FileEdit)
    (hc : fe.is_creation = true) (he : fileExists fe.file_path = true) :
    (is_valid fileExists relpath inContext fe).1 = false ∧
      session_filter_edits fileExists relpath inContext [fe] = [] := by
  have h1 : is_valid fileExists relpath inContext fe = (false, fe) := by
    unfold is_valid
    rw [hc]
    simp [he]
  exact ⟨by rw [h1], by simp [session_filter_edits, h1]⟩

/-- Witness for C7. -/
theorem is_valid_creation_exists_witness :
    (is_valid (fun _ => true) id (fun _ => true) ⟨"f", [], true, false, none⟩).1 = false ∧
      session_filter_edits (fun _ => true) id (fun _ => true)
        [⟨"f", [], true, false, none⟩] = [] :=
  is_valid_creation_exists (fun _ => true) id (fun _ => true)
    ⟨"f", [], true, false, none⟩ rfl rfl

/-! ### C8 -/

/-- C8: an otherwise-valid edit whose rename target already exists passes the
validity check with only `rename_file_path` cleared to `none`: `is_valid`
returns `true` and every other field of the edit is unchanged. -/
theorem is_valid_rename_downgrade (fileExists : String → Bool)
    (relpath : String → String) (inContext : String → Bool) (fe : FileEdit) (p : String)
    (hr : fe.rename_file_path = some p) (hp : fileExists p = true)
    (hcrea : fe.is_creation = true → fileExists fe.file_path = false)
    (hexist : fe.is_creation = false →
      fileExists fe.file_path = true ∧ inContext (relpath fe.file_path) = true) :
    is_valid fileExists relpath inContext fe = (true, { fe with rename_file_path := none }) := by
  unfold is_valid checkRename
  cases hc : fe.is_creation with
  | true =>
    rw [hcrea hc, hr]
    simp [hp]
  | false =>
    obtain ⟨h1, h2⟩ := hexist hc
    rw [h1, h2, hr]
    simp [hp]

/-- Witness for C8. -/
theorem is_valid_rename_downgrade_witness :
    is_valid (fun _ => true) id (fun _ => true) ⟨"f", [⟨0, 1, ["x"]⟩], false, false, some "g"⟩ =
      (true, { (⟨"f", [⟨0, 1, ["x"]⟩], false, false, some "g"⟩ : FileEdit) with
                rename_file_path := none }) :=
  is_valid_rename_downgrade (fun _ => true) id (fun _ => true)
    ⟨"f", [⟨0, 1, ["x"]⟩], false, false, some "g"⟩ "g" rfl rfl
    (fun h => nomatch h) (fun _ => ⟨rfl, rfl⟩)

/-! ### C9 -/

/-- C9: code evaluation at the failing input.  After `wrap_it_up` (shutdown
set) with one character still queued, the drain loop exits immediately at the
shutdown check for any number of iterations: it emits nothing and the queued
character is left behind, not drained.  (`add_string` after shutdown does
enqueue nothing, as the claim's first part says.) -/
theorem print_lines_discards_backlog_on_shutdown :
    (∀ n : Nat,
      runPrintLines n ⟨[['a']], 1, true⟩ = (⟨[['a']], 1, true⟩, [])) ∧
      add_string ⟨[['a']], 1, true⟩ ['b'] ['\n'] none = ⟨[['a']], 1, true⟩ := by
  constructor
  · intro n
    cases n <;> rfl
  · rfl

/-! ### C10 -/

/-- C10: from construction onward, `chars_remaining` always equals the number
of queued character units: the invariant holds initially and is preserved by
every `add_string` call and every iteration of the drain loop; consequently
the `sleep_time` divisor `chars_remaining + 1` equals the queue length plus
one and is never zero. -/
theorem printer_invariant_preserved :
    PrinterInv StreamingPrinter.init ∧
      (∀ (st : StreamingPrinter) (s e : List Char) (c : Option (List Char × List Char)),
        PrinterInv st → PrinterInv (add_string st s e c)) ∧
      (∀ st : StreamingPrinter, PrinterInv st → PrinterInv (printStep st).1) ∧
      (∀ st : StreamingPrinter, PrinterInv st →
        sleepDivisor st = (st.strings_to_print.length : Int) + 1 ∧ sleepDivisor st ≠ 0) := by
  refine ⟨by decide, ?_, ?_, ?_⟩
  · intro st s e c h
    unfold add_string
    split
    · exact h
    · split
      · exact h
      · unfold PrinterInv at *
        dsimp only
        simp only [List.length_append, List.length_singleton]
        push_cast
        omega
  · intro st h
    unfold printStep
    split
    · exact h
    · unfold PrinterInv at *
      cases hq : st.strings_to_print with
      | nil => dsimp only; exact h
      | cons x rest =>
        dsimp only
        rw [hq, List.length_cons] at h
        push_cast at h ⊢
        omega
  · intro st h
    unfold PrinterInv at h
    unfold sleepDivisor
    rw [h]
    constructor
    · rfl
    · omega

/-- Witness for C10. -/
theorem printer_invariant_preserved_witness :
    PrinterInv (add_string StreamingPrinter.init ['h'] ['i'] none) :=
  printer_invariant_preserved.2.1 StreamingPrinter.init ['h'] ['i'] none (by decide)

end Mentat
